import Mathlib

/-!
Verification model of tabasco (Time Based Source Control), a periodic
whole-tree snapshotting tool (`tabasco.py`).

Modelling conventions:
* Python strings are modelled as `List Char` (Python string comparison is
  lexicographic on code points, which is exactly lexicographic comparison
  of the character lists).
* `datetime` values are modelled as `Int` timestamps at second resolution;
  the version name derived by `strftime("%Y.%m.%d - %H.%M.%S")` is an
  injective encoding of the second-resolution timestamp, modelled by an
  injective rendering of the integer.
* The on-disk state of a monitored tree (working directory, the `.tbsc`
  metadata directory with its `versions` shelve, `last` shelve and the
  per-version snapshot directories) is modelled by the structure
  `TbscState`.  Shelve files are association lists keyed by strings.
* Python exceptions are modelled by `Option PyErr` results: `none` means
  normal return, `some e` means the operation raised `e`, and the state
  component returned alongside is the on-disk state after the partial
  effects performed before the exception.
-/

/-- Characters of a Python string. -/
abbrev PyStr := List Char

/-- Convert a Lean string literal to the model's string type. -/
def pyS (s : String) : PyStr := s.toList

/-- Lexicographic `≤` on strings, as used by Python `sorted` on `str`
(code-point lexicographic order). -/
def strLeb : PyStr → PyStr → Bool
  | [], _ => true
  | _ :: _, [] => false
  | a :: as, b :: bs => if a < b then true else if b < a then false else strLeb as bs

/-- The order `strLeb` as a relation, for use with `List.insertionSort`. -/
def PyLe (a b : PyStr) : Prop := strLeb a b = true

instance : DecidableRel PyLe := fun a b =>
  inferInstanceAs (Decidable (strLeb a b = true))

/-- Model of Python `list.index` (position of the first occurrence). -/
def pyIndex (x : PyStr) : List PyStr → Nat
  | [] => 0
  | y :: ys => if y = x then 0 else pyIndex x ys + 1

/-- Model of Python `sorted` on a list of strings. -/
def pysorted (l : List PyStr) : List PyStr := List.insertionSort PyLe l

/-- The `Version` namedtuple: `{checksum, time, name}`. -/
structure Version where
  checksum : PyStr
  time : Int
  name : PyStr
deriving DecidableEq, Repr

/-- Key lookup in an association list; models both shelve key access and
the existence test of a named filesystem entry in a directory listing. -/
def lookupK {α : Type} (k : PyStr) : List (PyStr × α) → Option α
  | [] => none
  | (k2, v) :: rest => if k2 = k then some v else lookupK k rest

/-- Insert-or-overwrite a key in an association list; models shelve item
assignment (`db[key] = value`, which silently overwrites) and models
overwriting an existing file during a copy. -/
def upsert {α : Type} (l : List (PyStr × α)) (k : PyStr) (v : α) :
    List (PyStr × α) :=
  match l with
  | [] => [(k, v)]
  | (k2, v2) :: rest => if k2 = k then (k, v) :: rest else (k2, v2) :: upsert rest k v

/-- The final loop of `SC._version_by_commit_checksum`: scan `self.versions`
and return the first version whose checksum equals the candidate. -/
def findByChecksum (cs : PyStr) : List Version → Option Version
  | [] => none
  | v :: rest => if v.checksum = cs then some v else findByChecksum cs rest

/-- `SC._version_by_commit_checksum`: append the requested prefix to the
stored checksums, sort, take the element right after the (first occurrence
of the) prefix, check it starts with the prefix, and return the first
stored version carrying that checksum.  `none` models the `IndexError`
raised either explicitly (`"No such commit."`) or by the out-of-range
list access. -/
def version_by_commit_checksum (versions : List Version) (commit : PyStr) :
    Option Version :=
  let checksums := pysorted ((versions.map Version.checksum) ++ [commit])
  match checksums[pyIndex commit checksums + 1]? with
  | none => none
  | some candidate =>
    if commit.isPrefixOf candidate then findByChecksum candidate versions
    else none

/-- Two demo versions, as in the repository's own tests. -/
def demoV1 : Version := ⟨pyS "Hello", 0, pyS "2020.01.01 - 00.00.00"⟩

/-- Second demo version, with a shared checksum start. -/
def demoV2 : Version := ⟨pyS "Hello2", 5, pyS "2020.01.01 - 00.00.05"⟩

/-- The demo version list. -/
def demoVersions : List Version := [demoV1, demoV2]

/-- A filesystem entry: a file with its byte content, or a directory with
its named entries. -/
inductive FsTree where
  | file (content : PyStr)
  | dir (entries : List (PyStr × FsTree))

/-- A directory listing: named entries in `os.listdir` order. -/
abbrev Listing := List (PyStr × FsTree)

/-- Whether `glob('*')` skips this name: the Python `glob` module never
matches names beginning with a dot, so `SC._clear_working_directory`
leaves every dot-entry (including `.tbsc`) in place. -/
def isHidden (name : PyStr) : Bool :=
  match name with
  | [] => false
  | c :: _ => c = '.'

/-- The characters of the reserved metadata-directory name. -/
def tbscChars : PyStr := pyS ".tbsc"

/-- Python's substring test `".tbsc" in filename` used by
`Monitor._commit` to skip entries. -/
def containsTbsc : PyStr → Bool
  | [] => false
  | c :: rest => tbscChars.isPrefixOf (c :: rest) || containsTbsc rest

/-- Python-style errors raised by the modelled operations. -/
inductive PyErr where
  | noSuchCommit
  | fileExists
  | isADirectory
  | fileNotFound
  | typeError
  | duplicateVersion
deriving DecidableEq, Repr

/-- Copy a sequence of entries into a destination directory in order —
the common loop of `Monitor._commit` and `SC._copy_to_working_directory`:
`shutil.copy2` overwrites an existing destination file (but raises
`IsADirectoryError` onto an existing directory), while `shutil.copytree`
raises `FileExistsError` when the destination path already exists.
Returns the error (if any) and the destination contents after the
entries copied before the error. -/
def copyAll : Listing → Listing → Option PyErr × Listing
  | [], dst => (none, dst)
  | (name, t) :: rest, dst =>
    match t with
    | .file c =>
      match lookupK name dst with
      | some (.dir _) => (some .isADirectory, dst)
      | _ => copyAll rest (upsert dst name (.file c))
    | .dir es =>
      match lookupK name dst with
      | some _ => (some .fileExists, dst)
      | none => copyAll rest (dst ++ [(name, .dir es)])

/-- `SC._clear_working_directory`: `glob('*')` enumerates the non-hidden
top-level entries and removes each (directories recursively, files
individually); every dot-entry survives. -/
def clear_working_directory (wd : Listing) : Listing :=
  wd.filter (fun e => isHidden e.1)

/-- `Monitor._commit`: copy every top-level working-directory entry whose
name does not contain `".tbsc"` into the version directory. -/
def commit_copy (wd : Listing) (dest : Listing) : Option PyErr × Listing :=
  copyAll (wd.filter (fun e => !(containsTbsc e.1))) dest

/-- The `last` shelve of a monitored tree; each key may be absent. -/
structure LastFile where
  checksum : Option PyStr
  time : Option Int
  name : Option PyStr
deriving DecidableEq, Repr

/-- On-disk state of one monitored tree: the top-level working-directory
entries outside `.tbsc`, and inside `.tbsc` the `last` shelve, the
`versions` shelve and the per-version snapshot directories. -/
structure TbscState where
  workdir : Listing
  lastDb : LastFile
  versionsDb : List (PyStr × Version)
  snapshots : List (PyStr × Listing)

/-- `SC.versions`: yield the `Version` records of the `versions` shelve. -/
def versionsList (st : TbscState) : List Version :=
  st.versionsDb.map Prod.snd

/-- The version name `now.strftime("%Y.%m.%d - %H.%M.%S")`: an injective
encoding of the second-resolution timestamp (names are only ever compared
for equality, so any injective rendering models it faithfully). -/
def versionName (now : Int) : PyStr := (toString now).toList

/-- `Monitor._should_backup`: read the `last` shelve; commit
unconditionally when neither a checksum nor a time is recorded, otherwise
commit iff at least `frequency` seconds elapsed and the checksum changed.
`none` models the `TypeError` crash on a time-less record (`now - None`). -/
def should_backup (frequency : Int) (now : Int) (checksum : PyStr)
    (last : LastFile) : Option Bool :=
  if last.checksum = none ∧ last.time = none then some true
  else
    match last.time with
    | none => none
    | some t =>
      let is_old := decide (now - t ≥ frequency)
      let is_outdated :=
        match last.checksum with
        | none => true
        | some lc => decide (checksum ≠ lc)
      some (is_old && is_outdated)

/-- `Monitor._update_time_and_hash`: overwrite the `last` shelve with the
current checksum, time and derived version name. -/
def update_time_and_hash (now : Int) (checksum : PyStr) (st : TbscState) :
    TbscState :=
  { st with lastDb := ⟨some checksum, some now, some (versionName now)⟩ }

/-- `Monitor._backup`: write the version record into the `versions`
shelve (shelve assignment, which silently overwrites an existing record
of the same name), then copy the tree into the version directory via
`Monitor._commit` (creating it only when absent). -/
def monitor_backup (now : Int) (checksum : PyStr) (st : TbscState) :
    Option PyErr × TbscState :=
  let name := versionName now
  let res := commit_copy st.workdir (Option.getD (lookupK name st.snapshots) [])
  (res.1, { st with
      versionsDb := upsert st.versionsDb name ⟨checksum, now, name⟩,
      snapshots := upsert st.snapshots name res.2 })

/-- Re-raise `FileExistsError` from a backup as the `RuntimeError`
"Commit failed - a commit with the same name already exists." -/
def mapRunErr : Option PyErr → Option PyErr
  | some .fileExists => some .duplicateVersion
  | e => e

/-- `Monitor.run`: decide via `_should_backup`; if positive, first update
the `last` shelve, then perform the backup, translating a
`FileExistsError` into the duplicate-commit `RuntimeError`. -/
def monitor_run (frequency : Int) (now : Int) (checksum : PyStr)
    (st : TbscState) : Option PyErr × TbscState :=
  match should_backup frequency now checksum st.lastDb with
  | none => (some .typeError, st)
  | some false => (none, st)
  | some true =>
    let st1 := update_time_and_hash now checksum st
    let res := monitor_backup now checksum st1
    (mapRunErr res.1, res.2)

/-- `SC.apply`: resolve the commit, then clear the working directory,
then copy the snapshot's entries back into it.  The resolution error
propagates before anything is touched; a missing snapshot directory makes
`os.listdir` raise only after the clearing already happened. -/
def apply_sc (commit : PyStr) (st : TbscState) : Option PyErr × TbscState :=
  match version_by_commit_checksum (versionsList st) commit with
  | none => (some .noSuchCommit, st)
  | some v =>
    let cleared := clear_working_directory st.workdir
    match lookupK v.name st.snapshots with
    | none => (some .fileNotFound, { st with workdir := cleared })
    | some snap =>
      let res := copyAll snap cleared
      (res.1, { st with workdir := res.2 })

/-- `SC.remove`: resolve the commit, then delete every record of the
`versions` shelve whose checksum equals the resolved version's checksum. -/
def remove_sc (commit : PyStr) (st : TbscState) : Option PyErr × TbscState :=
  match version_by_commit_checksum (versionsList st) commit with
  | none => (some .noSuchCommit, st)
  | some v =>
    (none, { st with
      versionsDb := st.versionsDb.filter (fun kv => !(kv.2.checksum = v.checksum : Bool)) })

/-- A state whose working directory holds a hidden file `.keep` that was
not part of the (empty) snapshot of the stored version. -/
def stCex : TbscState :=
  { workdir := [(pyS ".keep", FsTree.file (pyS "z"))],
    lastDb := ⟨none, none, none⟩,
    versionsDb := [(pyS "n0", ⟨pyS "A", 0, pyS "n0"⟩)],
    snapshots := [(pyS "n0", [])] }

/-- A tree whose next backup will fail while copying (the version
directory for the computed name already holds a same-named directory). -/
def stC4 : TbscState :=
  { workdir := [(pyS "d", FsTree.dir [])],
    lastDb := ⟨some (pyS "A"), some 0, some (versionName 0)⟩,
    versionsDb := [],
    snapshots := [(versionName 1, [(pyS "d", FsTree.dir [])])] }

/-- The name computed for a commit at time 5. -/
def nm5 : PyStr := versionName 5

/-- A tree that already stores a version named `nm5` (checksum "A"),
whose snapshot holds the single file `f`, and whose working directory
holds only files. -/
def stC5 : TbscState :=
  { workdir := [(pyS "f", FsTree.file (pyS "new"))],
    lastDb := ⟨some (pyS "A"), some 5, some nm5⟩,
    versionsDb := [(nm5, ⟨pyS "A", 5, nm5⟩)],
    snapshots := [(nm5, [(pyS "f", FsTree.file (pyS "old"))])] }

theorem strLeb_refl (a : PyStr) : strLeb a a = true := by
  induction a with
  | nil => rfl
  | cons c cs ih => simp [strLeb, lt_irrefl, ih]

theorem strLeb_total (a b : PyStr) : strLeb a b = true ∨ strLeb b a = true := by
  induction a generalizing b with
  | nil => exact Or.inl rfl
  | cons c cs ih =>
    cases b with
    | nil => exact Or.inr rfl
    | cons d ds =>
      rcases lt_trichotomy c d with h | h | h
      · left; simp [strLeb, h]
      · subst h
        rcases ih ds with h2 | h2
        · left; simp [strLeb, lt_irrefl, h2]
        · right; simp [strLeb, lt_irrefl, h2]
      · right; simp [strLeb, h]

theorem strLeb_trans {a b c : PyStr} (h1 : strLeb a b = true)
    (h2 : strLeb b c = true) : strLeb a c = true := by
  induction a generalizing b c with
  | nil => rfl
  | cons x xs ih =>
    cases b with
    | nil => simp [strLeb] at h1
    | cons y ys =>
      cases c with
      | nil => simp [strLeb] at h2
      | cons z zs =>
        simp only [strLeb] at h1 h2 ⊢
        rcases lt_trichotomy x y with hxy | hxy | hxy
        · rcases lt_trichotomy y z with hyz | hyz | hyz
          · simp [lt_trans hxy hyz]
          · subst hyz; simp [hxy]
          · simp [hyz, not_lt_of_lt hyz] at h2
        · subst hxy
          rcases lt_trichotomy x z with hyz | hyz | hyz
          · simp [hyz]
          · subst hyz
            simp only [lt_irrefl, if_false] at h1 h2 ⊢
            exact ih h1 h2
          · simp [hyz, not_lt_of_lt hyz] at h2
        · simp [hxy, not_lt_of_lt hxy] at h1

theorem strLeb_antisymm {a b : PyStr} (h1 : strLeb a b = true)
    (h2 : strLeb b a = true) : a = b := by
  induction a generalizing b with
  | nil =>
    cases b with
    | nil => rfl
    | cons d ds => simp [strLeb] at h2
  | cons c cs ih =>
    cases b with
    | nil => simp [strLeb] at h1
    | cons d ds =>
      simp only [strLeb] at h1 h2
      rcases lt_trichotomy c d with h | h | h
      · simp [h, not_lt_of_lt h] at h2
      · subst h
        simp only [lt_irrefl, if_false] at h1 h2
        rw [ih h1 h2]
      · simp [h, not_lt_of_lt h] at h1

instance : IsTotal PyStr PyLe := ⟨strLeb_total⟩
instance : IsTrans PyStr PyLe := ⟨fun _ _ _ => strLeb_trans⟩
instance : IsAntisymm PyStr PyLe := ⟨fun _ _ => strLeb_antisymm⟩

/-- A string is lexicographically at most any of its extensions:
`p.isPrefixOf c` (Python `c.startswith(p)`) implies `p ≤ c`. -/
theorem strLeb_of_isPrefixOf {p c : PyStr} (h : p.isPrefixOf c = true) :
    strLeb p c = true := by
  induction p generalizing c with
  | nil => rfl
  | cons a as ih =>
    cases c with
    | nil => simp [List.isPrefixOf] at h
    | cons b bs =>
      simp only [List.isPrefixOf, Bool.and_eq_true, beq_iff_eq] at h
      obtain ⟨rfl, h2⟩ := h
      simpa [strLeb, lt_irrefl] using ih h2

/-- Separation fact: a string `d` that is lexicographically at least `p`
but does not extend `p` is strictly above every extension `c` of `p`. -/
theorem strLeb_sep {p c d : PyStr} (hc : p.isPrefixOf c = true)
    (hled : strLeb p d = true) (hnd : p.isPrefixOf d = false) :
    strLeb c d = true ∧ c ≠ d := by
  induction p generalizing c d with
  | nil => simp [List.isPrefixOf] at hnd
  | cons a as ih =>
    cases c with
    | nil => simp [List.isPrefixOf] at hc
    | cons b bs =>
      simp only [List.isPrefixOf, Bool.and_eq_true, beq_iff_eq] at hc
      obtain ⟨rfl, hc2⟩ := hc
      cases d with
      | nil => simp [strLeb] at hled
      | cons e es =>
        rcases lt_trichotomy a e with h | h | h
        · refine ⟨by simp [strLeb, h], ?_⟩
          intro heq
          exact absurd (List.cons.injEq .. ▸ congrArg id heq) (by
            intro hp
            exact absurd hp.1 (ne_of_lt h))
        · subst h
          simp only [strLeb, lt_irrefl, if_false] at hled ⊢
          simp only [List.isPrefixOf, beq_self_eq_true, Bool.true_and] at hnd
          obtain ⟨h1, h2⟩ := ih hc2 hled hnd
          exact ⟨h1, by simpa using h2⟩
        · simp [strLeb, h, not_lt_of_lt h] at hled

theorem pyIndex_append_cons (X Y : List PyStr) (x : PyStr) (hx : x ∉ X) :
    pyIndex x (X ++ x :: Y) = X.length := by
  induction X with
  | nil => simp [pyIndex]
  | cons h t ih =>
    have hne : h ≠ x := fun heq => hx (heq ▸ List.mem_cons_self h t)
    have ht : x ∉ t := fun hm => hx (List.mem_cons_of_mem _ hm)
    simp [pyIndex, hne, ih ht]

theorem pysorted_perm (l : List PyStr) : List.Perm (pysorted l) l :=
  List.perm_insertionSort PyLe l

theorem mem_pysorted {l : List PyStr} {x : PyStr} : x ∈ pysorted l ↔ x ∈ l :=
  (pysorted_perm l).mem_iff

theorem pysorted_sorted (l : List PyStr) : List.Sorted PyLe (pysorted l) :=
  List.sorted_insertionSort PyLe l

/-- Sorting a list with `p` appended splits it into the sorted strings
below `p`, then `p`, then the sorted strings at or above `p`. -/
theorem pysorted_append_single (S : List PyStr) (p : PyStr) :
    pysorted (S ++ [p]) =
      pysorted (S.filter fun s => !(strLeb p s)) ++
        p :: pysorted (S.filter fun s => strLeb p s) := by
  have hBpred : (fun x => !(!(strLeb p x))) = (fun x => strLeb p x) := by
    funext x; simp
  have hperm : List.Perm (pysorted (S ++ [p]))
      (pysorted (S.filter fun s => !(strLeb p s)) ++
        p :: pysorted (S.filter fun s => strLeb p s)) := by
    refine (pysorted_perm _).trans (List.Perm.symm ?_)
    refine ((pysorted_perm _).append ((pysorted_perm _).cons p)).trans ?_
    have h1 : List.Perm
        ((S.filter fun s => !(strLeb p s)) ++ p :: (S.filter fun s => strLeb p s))
        (((S.filter fun s => !(strLeb p s)) ++ (S.filter fun s => strLeb p s)) ++ [p]) := by
      rw [List.append_assoc]
      exact (List.perm_append_singleton p _).symm.append_left _
    refine h1.trans ?_
    refine List.Perm.append_right [p] ?_
    have h2 := List.filter_append_perm (fun s => !(strLeb p s)) S
    rw [hBpred] at h2
    exact h2
  refine List.eq_of_perm_of_sorted (r := PyLe) hperm (pysorted_sorted _) ?_
  show List.Pairwise PyLe _
  rw [List.pairwise_append]
  refine ⟨pysorted_sorted _, ?_, ?_⟩
  · rw [List.pairwise_cons]
    refine ⟨?_, pysorted_sorted _⟩
    intro b hb
    exact (List.mem_filter.mp (mem_pysorted.mp hb)).2
  · intro a ha b hb
    have hap : strLeb a p = true := by
      have h2 := (List.mem_filter.mp (mem_pysorted.mp ha)).2
      rcases strLeb_total a p with h | h
      · exact h
      · simp [h] at h2
    rcases List.mem_cons.mp hb with rfl | hb2
    · exact hap
    · exact strLeb_trans hap (List.mem_filter.mp (mem_pysorted.mp hb2)).2

/-- The element the resolver picks — the one just after `p` in the
sorted combined list — is the head of the sorted list of stored
checksums that are lexicographically at least `p`. -/
theorem resolve_candidate (S : List PyStr) (p : PyStr) :
    (pysorted (S ++ [p]))[pyIndex p (pysorted (S ++ [p])) + 1]? =
      (pysorted (S.filter fun s => strLeb p s)).head? := by
  rw [pysorted_append_single]
  have hpX : p ∉ pysorted (S.filter fun s => !(strLeb p s)) := by
    intro hmem
    have h2 := (List.mem_filter.mp (mem_pysorted.mp hmem)).2
    simp [strLeb_refl] at h2
  rw [pyIndex_append_cons _ _ _ hpX]
  rw [List.getElem?_append_right (by omega)]
  simp [List.head?_eq_getElem?]

theorem pysorted_nil_iff {B : List PyStr} : pysorted B = [] ↔ B = [] := by
  constructor
  · intro h
    exact ((pysorted_perm B).symm.trans (h ▸ List.Perm.refl _)).eq_nil
  · intro h; rw [h]; rfl

/-- The head of a sorted list is a member and a lower bound. -/
theorem pysorted_head_min {B : List PyStr} {m : PyStr} {rest : List PyStr}
    (h : pysorted B = m :: rest) :
    m ∈ B ∧ ∀ b ∈ B, strLeb m b = true := by
  constructor
  · exact mem_pysorted.mp (h ▸ List.mem_cons_self m rest)
  · intro b hb
    have hbs : b ∈ pysorted B := mem_pysorted.mpr hb
    rw [h] at hbs
    rcases List.mem_cons.mp hbs with rfl | hb2
    · exact strLeb_refl _
    · have hs := pysorted_sorted B
      rw [h] at hs
      exact (List.sorted_cons.mp hs).1 b hb2

theorem findByChecksum_eq_some {cs : PyStr} {versions : List Version}
    {v : Version} (h : findByChecksum cs versions = some v) :
    v ∈ versions ∧ v.checksum = cs := by
  induction versions with
  | nil => simp [findByChecksum] at h
  | cons w rest ih =>
    by_cases hw : w.checksum = cs
    · simp only [findByChecksum, if_pos hw] at h
      cases h
      exact ⟨List.mem_cons_self _ _, hw⟩
    · simp only [findByChecksum, if_neg hw] at h
      obtain ⟨h1, h2⟩ := ih h
      exact ⟨List.mem_cons_of_mem _ h1, h2⟩

theorem findByChecksum_isSome {cs : PyStr} {versions : List Version}
    (h : ∃ v ∈ versions, v.checksum = cs) :
    ∃ v, findByChecksum cs versions = some v := by
  induction versions with
  | nil => simp at h
  | cons w rest ih =>
    by_cases hw : w.checksum = cs
    · exact ⟨w, by simp [findByChecksum, hw]⟩
    · obtain ⟨v, hv, hvc⟩ := h
      rcases List.mem_cons.mp hv with rfl | hv2
      · exact absurd hvc hw
      · obtain ⟨u, hu⟩ := ih ⟨v, hv2, hvc⟩
        exact ⟨u, by simp [findByChecksum, hw, hu]⟩

/-- Full characterization of `SC._version_by_commit_checksum`: it fails
exactly when no stored checksum extends the requested string, and on
success returns a stored version whose checksum is the lexicographically
least stored checksum extending it (the exact checksum itself when it is
stored). -/
theorem resolve_spec (versions : List Version) (p : PyStr) :
    (version_by_commit_checksum versions p = none →
        ∀ c ∈ versions.map Version.checksum, p.isPrefixOf c = false)
    ∧ (∀ v, version_by_commit_checksum versions p = some v →
        v ∈ versions ∧ p.isPrefixOf v.checksum = true ∧
        (∀ c ∈ versions.map Version.checksum, p.isPrefixOf c = true →
          strLeb v.checksum c = true) ∧
        (p ∈ versions.map Version.checksum → v.checksum = p)) := by
  have hcand := resolve_candidate (versions.map Version.checksum) p
  rcases hB : pysorted ((versions.map Version.checksum).filter fun s => strLeb p s) with
    _ | ⟨m, rest⟩
  · rw [hB] at hcand
    simp only [List.head?_nil] at hcand
    have hfil : (versions.map Version.checksum).filter (fun s => strLeb p s) = [] :=
      pysorted_nil_iff.mp hB
    have hnopfx : ∀ c ∈ versions.map Version.checksum, p.isPrefixOf c = false := by
      intro c hc
      cases hval : p.isPrefixOf c with
      | false => rfl
      | true =>
        have hmem : c ∈ (versions.map Version.checksum).filter (fun s => strLeb p s) :=
          List.mem_filter.mpr ⟨hc, strLeb_of_isPrefixOf hval⟩
        rw [hfil] at hmem
        exact absurd hmem (List.not_mem_nil c)
    have hres : version_by_commit_checksum versions p = none := by
      simp only [version_by_commit_checksum]
      rw [hcand]
    refine ⟨fun _ => hnopfx, ?_⟩
    intro v hv
    rw [hres] at hv
    exact absurd hv (by simp)
  · rw [hB] at hcand
    simp only [List.head?_cons] at hcand
    obtain ⟨hmB, hmin⟩ := pysorted_head_min hB
    have hmS : m ∈ versions.map Version.checksum := (List.mem_filter.mp hmB).1
    have hpm : strLeb p m = true := (List.mem_filter.mp hmB).2
    cases hpfx : p.isPrefixOf m with
    | false =>
      have hres : version_by_commit_checksum versions p = none := by
        simp only [version_by_commit_checksum]
        rw [hcand]
        simp [hpfx]
      have hnopfx : ∀ c ∈ versions.map Version.checksum, p.isPrefixOf c = false := by
        intro c hc
        cases hval : p.isPrefixOf c with
        | false => rfl
        | true =>
          have hcm : strLeb m c = true :=
            hmin c (List.mem_filter.mpr ⟨hc, strLeb_of_isPrefixOf hval⟩)
          obtain ⟨hle, hne⟩ := strLeb_sep hval hpm hpfx
          exact absurd (strLeb_antisymm hle hcm) hne
      refine ⟨fun _ => hnopfx, ?_⟩
      intro v hv
      rw [hres] at hv
      exact absurd hv (by simp)
    | true =>
      have hex : ∃ v ∈ versions, v.checksum = m := by
        obtain ⟨v, hv, hvc⟩ := List.mem_map.mp hmS
        exact ⟨v, hv, hvc⟩
      obtain ⟨v0, hv0⟩ := findByChecksum_isSome hex
      have hres : version_by_commit_checksum versions p = some v0 := by
        simp only [version_by_commit_checksum]
        rw [hcand]
        simp [hpfx, hv0]
      obtain ⟨hv0mem, hv0cs⟩ := findByChecksum_eq_some hv0
      refine ⟨fun hnone => absurd (hres ▸ hnone) (by simp), ?_⟩
      intro v hv
      rw [hres] at hv
      injection hv with hv
      subst hv
      refine ⟨hv0mem, hv0cs ▸ hpfx, ?_, ?_⟩
      · intro c hc hpc
        rw [hv0cs]
        exact hmin c (List.mem_filter.mpr ⟨hc, strLeb_of_isPrefixOf hpc⟩)
      · intro hpS
        rw [hv0cs]
        exact strLeb_antisymm (hmin p (List.mem_filter.mpr ⟨hpS, strLeb_refl p⟩)) hpm

theorem isPrefixOf_self (p : PyStr) : p.isPrefixOf p = true := by
  induction p with
  | nil => rfl
  | cons a as ih => simp [List.isPrefixOf, ih]

/-- C1: For every set of stored versions and every requested string `p`,
`SC._version_by_commit_checksum` succeeds exactly when some stored
version's checksum starts with `p`; on success it returns a stored
version whose checksum is the lexicographically smallest stored checksum
having `p` at its start (found via insertion into the sorted checksum
list and taking the following element); when `p` is exactly a stored
checksum it returns a version with that checksum; otherwise it fails
(`NoSuchCommit`, modelled as `none`). -/
theorem C1_resolver_prefix_resolution (versions : List Version) (p : PyStr) :
    ((version_by_commit_checksum versions p).isSome ↔
      ∃ c ∈ versions.map Version.checksum, p.isPrefixOf c = true)
    ∧ (∀ v, version_by_commit_checksum versions p = some v →
        v ∈ versions ∧ p.isPrefixOf v.checksum = true ∧
        ∀ c ∈ versions.map Version.checksum, p.isPrefixOf c = true →
          strLeb v.checksum c = true)
    ∧ (p ∈ versions.map Version.checksum →
        ∃ v, version_by_commit_checksum versions p = some v ∧ v.checksum = p) := by
  obtain ⟨hnone, hsome⟩ := resolve_spec versions p
  refine ⟨⟨?_, ?_⟩, ?_, ?_⟩
  · intro hs
    obtain ⟨v, hv⟩ := Option.isSome_iff_exists.mp hs
    obtain ⟨hmem, hpfx, _, _⟩ := hsome v hv
    exact ⟨v.checksum, List.mem_map_of_mem _ hmem, hpfx⟩
  · rintro ⟨c, hc, hpc⟩
    cases hres : version_by_commit_checksum versions p with
    | some v => rfl
    | none => exact absurd (hnone hres c hc) (by simp [hpc])
  · intro v hv
    obtain ⟨h1, h2, h3, _⟩ := hsome v hv
    exact ⟨h1, h2, h3⟩
  · intro hpS
    cases hres : version_by_commit_checksum versions p with
    | none =>
      obtain ⟨v, hv, hvc⟩ := List.mem_map.mp hpS
      have hfalse := hnone hres v.checksum (List.mem_map_of_mem _ hv)
      rw [hvc, isPrefixOf_self] at hfalse
      exact absurd hfalse (by simp)
    | some v =>
      exact ⟨v, rfl, (hsome v hres).2.2.2 hpS⟩

/-- Witness for C1 at a concrete input: resolving `"H"` against stored
checksums `"Hello"` and `"Hello2"` returns the `"Hello"` version, which
is the lexicographically smallest matching checksum. -/
theorem C1_resolver_prefix_resolution_witness :
    version_by_commit_checksum demoVersions (pyS "H") = some demoV1 ∧
    demoV1 ∈ demoVersions ∧ (pyS "H").isPrefixOf demoV1.checksum = true ∧
    (∀ c ∈ demoVersions.map Version.checksum, (pyS "H").isPrefixOf c = true →
      strLeb demoV1.checksum c = true) := by
  have h := (C1_resolver_prefix_resolution demoVersions (pyS "H")).2.1 demoV1 (by decide)
  exact ⟨by decide, h.1, h.2.1, h.2.2⟩

theorem lookupK_none_iff {α : Type} {k : PyStr} {l : List (PyStr × α)} :
    lookupK k l = none ↔ ∀ e ∈ l, e.1 ≠ k := by
  induction l with
  | nil =>
    refine ⟨fun _ e he => absurd he (List.not_mem_nil e), fun _ => rfl⟩
  | cons e rest ih =>
    obtain ⟨k2, v⟩ := e
    by_cases hk : k2 = k
    · subst hk
      simp only [lookupK, if_pos rfl]
      refine ⟨fun h => absurd h (by simp), fun h => absurd rfl (h (k2, v) (List.mem_cons_self _ _))⟩
    · simp only [lookupK, if_neg hk, ih]
      constructor
      · intro h e2 he2
        rcases List.mem_cons.mp he2 with rfl | h2
        · exact hk
        · exact h e2 h2
      · intro h e2 he2
        exact h e2 (List.mem_cons_of_mem _ he2)

theorem lookupK_append {α : Type} (k : PyStr) (l1 l2 : List (PyStr × α)) :
    lookupK k (l1 ++ l2) =
      (match lookupK k l1 with
       | some v => some v
       | none => lookupK k l2) := by
  induction l1 with
  | nil => simp [lookupK]
  | cons e rest ih =>
    obtain ⟨k2, v⟩ := e
    by_cases hk : k2 = k
    · simp [lookupK, hk]
    · simp [lookupK, hk, ih]

theorem lookupK_upsert_ne {α : Type} {k k2 : PyStr} (hne : k2 ≠ k)
    (l : List (PyStr × α)) (v : α) :
    lookupK k (upsert l k2 v) = lookupK k l := by
  induction l with
  | nil => simp [upsert, lookupK, hne]
  | cons e rest ih =>
    obtain ⟨k3, v3⟩ := e
    by_cases h3 : k3 = k2
    · subst h3
      simp [upsert, lookupK, hne]
    · by_cases h3k : k3 = k
      · subst h3k
        simp [upsert, h3, lookupK, Ne.symm h3]
      · simp [upsert, h3, lookupK, h3k, ih]

theorem upsert_of_lookupK_none {α : Type} {l : List (PyStr × α)} {k : PyStr}
    (h : lookupK k l = none) (v : α) : upsert l k v = l ++ [(k, v)] := by
  induction l with
  | nil => rfl
  | cons e rest ih =>
    obtain ⟨k2, v2⟩ := e
    by_cases hk : k2 = k
    · simp [lookupK, hk] at h
    · simp only [lookupK, if_neg hk] at h
      simp [upsert, hk, ih h]

theorem copyAll_lookupK_none {src dst : Listing} {k : PyStr}
    (hdst : lookupK k dst = none) (hsrc : ∀ e ∈ src, e.1 ≠ k) :
    lookupK k (copyAll src dst).2 = none := by
  induction src generalizing dst with
  | nil => simpa [copyAll]
  | cons e rest ih =>
    obtain ⟨name, t⟩ := e
    have hne : name ≠ k := hsrc _ (List.mem_cons_self _ _)
    have hrest : ∀ e2 ∈ rest, e2.1 ≠ k := fun e2 he2 => hsrc e2 (List.mem_cons_of_mem _ he2)
    cases t with
    | file c =>
      cases hl : lookupK name dst with
      | some tv =>
        cases tv with
        | dir es => simpa [copyAll, hl]
        | file c2 =>
          simp only [copyAll, hl]
          exact ih (by rw [lookupK_upsert_ne hne]; exact hdst) hrest
      | none =>
        simp only [copyAll, hl]
        exact ih (by rw [lookupK_upsert_ne hne]; exact hdst) hrest
    | dir es =>
      cases hl : lookupK name dst with
      | some tv => simpa [copyAll, hl]
      | none =>
        simp only [copyAll, hl]
        refine ih ?_ hrest
        rw [lookupK_append, hdst]
        simp [lookupK, hne]

theorem copyAll_disjoint {src : Listing} (hnd : (src.map Prod.fst).Nodup)
    (dst : Listing) (hdisj : ∀ e ∈ src, lookupK e.1 dst = none) :
    copyAll src dst = (none, dst ++ src) := by
  induction src generalizing dst with
  | nil => simp [copyAll]
  | cons e rest ih =>
    obtain ⟨name, t⟩ := e
    have hl : lookupK name dst = none := hdisj _ (List.mem_cons_self _ _)
    rw [List.map_cons, List.nodup_cons] at hnd
    obtain ⟨hnmem, hnd2⟩ := hnd
    have hdisj2 : ∀ t2 : FsTree, ∀ e2 ∈ rest, lookupK e2.1 (dst ++ [(name, t2)]) = none := by
      intro t2 e2 he2
      have h1 : lookupK e2.1 dst = none := hdisj _ (List.mem_cons_of_mem _ he2)
      have h2 : name ≠ e2.1 := by
        intro heq
        apply hnmem
        rw [heq]
        exact List.mem_map.mpr ⟨e2, he2, rfl⟩
      rw [lookupK_append, h1]
      simp [lookupK, h2]
    cases t with
    | file c =>
      simp only [copyAll, hl]
      rw [upsert_of_lookupK_none hl, ih hnd2 _ (hdisj2 (FsTree.file c))]
      simp
    | dir es =>
      simp only [copyAll, hl]
      rw [ih hnd2 _ (hdisj2 (FsTree.dir es))]
      simp

/-- Counterexample to C2 as stated: applying a resolvable commit whose
snapshot is empty succeeds, yet the hidden top-level file `.keep` — a
non-metadata entry — survives (because `glob('*')` never matches
dot-entries), so the resulting working directory is not equal to the
snapshot's contents. -/
theorem C2_counterexample_hidden_file_survives :
    (apply_sc (pyS "A") stCex).1 = none ∧
    lookupK (pyS "n0") stCex.snapshots = some [] ∧
    lookupK (pyS ".keep") (apply_sc (pyS "A") stCex).2.workdir =
      some (FsTree.file (pyS "z")) ∧
    (apply_sc (pyS "A") stCex).2.workdir ≠ [] := by
  refine ⟨rfl, rfl, rfl, ?_⟩
  have h : (apply_sc (pyS "A") stCex).2.workdir =
      [(pyS ".keep", FsTree.file (pyS "z"))] := rfl
  rw [h]
  exact List.cons_ne_nil _ _

/-- C2 (amended): after `apply`, the non-hidden top-level entries are
replaced by exactly the snapshot's entries: clearing deletes every
top-level entry whose name does not begin with a dot (directories
recursively, files individually) and leaves every dot-named entry —
the metadata directory among them — in place; the snapshot's entries are
then copied back, so when its names are distinct and do not collide with
the surviving hidden entries the result is the hidden entries followed by
the snapshot's contents, and any non-hidden file added or removed after
the commit is discarded. -/
theorem C2_amended_apply_restores (st : TbscState) (p : PyStr) (v : Version)
    (snap : Listing)
    (hres : version_by_commit_checksum (versionsList st) p = some v)
    (hsnap : lookupK v.name st.snapshots = some snap)
    (hnd : (snap.map Prod.fst).Nodup)
    (hdisj : ∀ e ∈ st.workdir, isHidden e.1 = true → ∀ s ∈ snap, s.1 ≠ e.1) :
    apply_sc p st =
      (none, { st with workdir := st.workdir.filter (fun e => isHidden e.1) ++ snap }) := by
  simp only [apply_sc, hres, hsnap]
  have hd2 : ∀ s ∈ snap, lookupK s.1 (clear_working_directory st.workdir) = none := by
    intro s hs
    rw [lookupK_none_iff]
    intro e he
    have hmem := List.mem_filter.mp he
    exact (hdisj e hmem.1 hmem.2 s hs).symm
  rw [copyAll_disjoint hnd _ hd2]
  simp [clear_working_directory]

/-- Witness for C2 (amended) at a concrete input: a working tree holding
a hidden `.keep` file and a stray `BADFILE`; applying the stored commit
whose snapshot holds exactly `FILE` removes `BADFILE`, keeps `.keep`, and
restores `FILE`. -/
theorem C2_amended_apply_restores_witness :
    apply_sc (pyS "A") (TbscState.mk
        [(pyS ".keep", FsTree.file (pyS "z")), (pyS "BADFILE", FsTree.file (pyS "b"))]
        ⟨none, none, none⟩
        [(pyS "n0", ⟨pyS "A", 0, pyS "n0"⟩)]
        [(pyS "n0", [(pyS "FILE", FsTree.file (pyS "x"))])]) =
      (none, TbscState.mk
        [(pyS ".keep", FsTree.file (pyS "z")), (pyS "FILE", FsTree.file (pyS "x"))]
        ⟨none, none, none⟩
        [(pyS "n0", ⟨pyS "A", 0, pyS "n0"⟩)]
        [(pyS "n0", [(pyS "FILE", FsTree.file (pyS "x"))])]) := by
  have h := C2_amended_apply_restores (TbscState.mk
        [(pyS ".keep", FsTree.file (pyS "z")), (pyS "BADFILE", FsTree.file (pyS "b"))]
        ⟨none, none, none⟩
        [(pyS "n0", ⟨pyS "A", 0, pyS "n0"⟩)]
        [(pyS "n0", [(pyS "FILE", FsTree.file (pyS "x"))])])
      (pyS "A") ⟨pyS "A", 0, pyS "n0"⟩ [(pyS "FILE", FsTree.file (pyS "x"))]
      rfl rfl (by decide) (by decide)
  exact h

/-- C10: `apply` is atomic with respect to resolution failure: when no
stored checksum starts with the requested string, `apply` raises the
resolution error (`NoSuchCommit`) and the whole state — the working
directory in particular — is unchanged, because resolution happens
before any clearing or copying. -/
theorem C10_apply_atomic_on_resolution_failure (st : TbscState) (p : PyStr)
    (h : ∀ c ∈ (versionsList st).map Version.checksum, p.isPrefixOf c = false) :
    apply_sc p st = (some PyErr.noSuchCommit, st) := by
  have hnone : version_by_commit_checksum (versionsList st) p = none := by
    cases hres : version_by_commit_checksum (versionsList st) p with
    | none => rfl
    | some v =>
      obtain ⟨hmem, hpfx, _⟩ := (resolve_spec (versionsList st) p).2 v hres
      have hfalse := h v.checksum (List.mem_map_of_mem Version.checksum hmem)
      rw [hpfx] at hfalse
      exact absurd hfalse (by simp)
  simp [apply_sc, hnone]

/-- Witness for C10 at a concrete input: no stored checksum starts with
`"Z"`, so `apply("Z")` fails and the state is untouched. -/
theorem C10_apply_atomic_on_resolution_failure_witness :
    apply_sc (pyS "Z") stCex = (some PyErr.noSuchCommit, stCex) :=
  C10_apply_atomic_on_resolution_failure stCex (pyS "Z") (by decide)

/-- C3: For every existing last-commit state (checksum and time both
recorded), every current time and every checksum, `Monitor._should_backup`
returns true iff at least `frequency` seconds elapsed since the last
commit AND the checksum changed; an unchanged checksum never triggers a
commit for any elapsed time, a changed checksum does not trigger one
before the window elapses, and does trigger one at or after it. -/
theorem C3_should_backup_decision (frequency now t : Int) (lc c : PyStr)
    (nm : Option PyStr) :
    (should_backup frequency now c ⟨some lc, some t, nm⟩ = some true ↔
      (now - t ≥ frequency ∧ c ≠ lc))
    ∧ (c = lc → should_backup frequency now c ⟨some lc, some t, nm⟩ = some false)
    ∧ (now - t < frequency →
        should_backup frequency now c ⟨some lc, some t, nm⟩ = some false)
    ∧ (now - t ≥ frequency → c ≠ lc →
        should_backup frequency now c ⟨some lc, some t, nm⟩ = some true) := by
  have hbase : should_backup frequency now c ⟨some lc, some t, nm⟩ =
      some (decide (now - t ≥ frequency) && decide (c ≠ lc)) := by
    simp [should_backup]
  simp only [hbase]
  refine ⟨?_, ?_, ?_, ?_⟩
  · simp
  · intro h
    simp [h]
  · intro h
    simp [not_le.mpr h]
  · intro h1 h2
    simp [h1, h2]

/-- Witness for C3 at concrete inputs: with frequency 5 and last state
(checksum "A", time 0): a changed checksum at time 7 commits, an
unchanged checksum at time 7 does not, and a changed checksum at time 3
does not. -/
theorem C3_should_backup_decision_witness :
    should_backup 5 7 (pyS "B") ⟨some (pyS "A"), some 0, none⟩ = some true ∧
    should_backup 5 7 (pyS "A") ⟨some (pyS "A"), some 0, none⟩ = some false ∧
    should_backup 5 3 (pyS "B") ⟨some (pyS "A"), some 0, none⟩ = some false :=
  ⟨(C3_should_backup_decision 5 7 0 (pyS "A") (pyS "B") none).2.2.2 (by decide) (by decide),
   (C3_should_backup_decision 5 7 0 (pyS "A") (pyS "A") none).2.1 rfl,
   (C3_should_backup_decision 5 3 0 (pyS "A") (pyS "B") none).2.2.1 (by decide)⟩

/-- C7: with no recorded checksum and no recorded timestamp the commit
decision is unconditionally true, for every frequency, current time and
checksum: the first check on a fresh tree always commits. -/
theorem C7_first_check_always_commits (frequency now : Int) (c : PyStr)
    (nm : Option PyStr) :
    should_backup frequency now c ⟨none, none, nm⟩ = some true := by
  simp [should_backup]

/-- C4: the last-commit state is modified only when a commit is about to
be performed — a check that decides not to commit (or that crashes in
the decision) leaves it unchanged — and when a commit is performed it is
set to the new `(checksum, now, name)` before the snapshot copy, so the
new values are recorded even if the copy then fails. -/
theorem C4_last_state_update (frequency now : Int) (c : PyStr) (st : TbscState) :
    (should_backup frequency now c st.lastDb = some false →
      (monitor_run frequency now c st).2.lastDb = st.lastDb)
    ∧ (should_backup frequency now c st.lastDb = none →
      (monitor_run frequency now c st).2.lastDb = st.lastDb)
    ∧ (should_backup frequency now c st.lastDb = some true →
      (monitor_run frequency now c st).2.lastDb =
        ⟨some c, some now, some (versionName now)⟩) := by
  refine ⟨?_, ?_, ?_⟩
  · intro h
    simp [monitor_run, h]
  · intro h
    simp [monitor_run, h]
  · intro h
    simp [monitor_run, h, monitor_backup, update_time_and_hash]

/-- Witness for C4 at a concrete input where the snapshot copy fails:
the run raises the duplicate-commit error, yet the last state already
records the new checksum and time. -/
theorem C4_last_state_update_witness :
    should_backup 1 1 (pyS "B") stC4.lastDb = some true ∧
    (monitor_run 1 1 (pyS "B") stC4).1 = some PyErr.duplicateVersion ∧
    (monitor_run 1 1 (pyS "B") stC4).2.lastDb =
      ⟨some (pyS "B"), some 1, some (versionName 1)⟩ :=
  ⟨by decide, by decide,
    (C4_last_state_update 1 1 (pyS "B") stC4).2.2 (by decide)⟩

/-- C5 evaluation at the failing input: a commit whose computed name
already exists in the version log raises no error at all when the tree
holds only files (`shutil.copy2` silently overwrites, and only
`copytree` of a subdirectory could raise `FileExistsError`), and the
shelve assignment `versions[version_name] = ...` overwrites the existing
record — the log is not append-only. -/
theorem C5_duplicate_commit_overwrites :
    (monitor_run 0 5 (pyS "B") stC5).1 = none ∧
    lookupK nm5 stC5.versionsDb = some ⟨pyS "A", 5, nm5⟩ ∧
    lookupK nm5 (monitor_run 0 5 (pyS "B") stC5).2.versionsDb =
      some ⟨pyS "B", 5, nm5⟩ := by
  refine ⟨rfl, rfl, rfl⟩

/-- C6: after a successful `remove`, no record whose checksum equals the
resolved version's checksum remains in the version log — all matching
records are deleted, so a subsequent versions listing no longer contains
that checksum. -/
theorem C6_remove_deletes_all_matching (commit : PyStr) (st : TbscState)
    (v : Version)
    (h : version_by_commit_checksum (versionsList st) commit = some v) :
    (remove_sc commit st).1 = none ∧
    ∀ w ∈ versionsList (remove_sc commit st).2, w.checksum ≠ v.checksum := by
  simp only [remove_sc, h]
  refine ⟨by trivial, ?_⟩
  intro w hw
  simp only [versionsList, List.mem_map] at hw
  obtain ⟨kv, hkv, rfl⟩ := hw
  have h2 := (List.mem_filter.mp hkv).2
  simpa using h2

/-- Witness for C6 at a concrete input: removing by prefix `"A"` (which
resolves to the stored version with checksum `"A"`) succeeds and leaves
no record with that checksum. -/
theorem C6_remove_deletes_all_matching_witness :
    (remove_sc (pyS "A") stCex).1 = none ∧
    ∀ w ∈ versionsList (remove_sc (pyS "A") stCex).2,
      w.checksum ≠ (Version.mk (pyS "A") 0 (pyS "n0")).checksum :=
  C6_remove_deletes_all_matching (pyS "A") stCex ⟨pyS "A", 0, pyS "n0"⟩ rfl

/-- C8: `remove` changes only the version log — the working directory,
the snapshot directories and the last-commit state are untouched,
whether or not resolution succeeds. -/
theorem C8_remove_touches_only_version_log (commit : PyStr) (st : TbscState) :
    (remove_sc commit st).2.workdir = st.workdir ∧
    (remove_sc commit st).2.snapshots = st.snapshots ∧
    (remove_sc commit st).2.lastDb = st.lastDb := by
  cases h : version_by_commit_checksum (versionsList st) commit with
  | none => simp [remove_sc, h]
  | some v => simp [remove_sc, h]

/-- C9: the snapshot-copy step of a commit skips every top-level entry
whose name contains the substring `".tbsc"` anywhere, not only the
metadata directory: no such name appears in a freshly created snapshot
copy. -/
theorem C9_commit_skips_tbsc_names (wd : Listing) (k : PyStr)
    (h : containsTbsc k = true) :
    lookupK k (commit_copy wd []).2 = none := by
  refine copyAll_lookupK_none rfl ?_
  intro e he hek
  have h2 := (List.mem_filter.mp he).2
  rw [hek, h] at h2
  simp at h2

/-- Witness for C9 at a concrete input: the ordinary user file
`notes.tbsc.txt` is absent from the snapshot copy. -/
theorem C9_commit_skips_tbsc_names_witness :
    containsTbsc (pyS "notes.tbsc.txt") = true ∧
    lookupK (pyS "notes.tbsc.txt")
      (commit_copy [(pyS "notes.tbsc.txt", FsTree.file (pyS "x")),
                    (pyS "keep.txt", FsTree.file (pyS "y"))] []).2 = none :=
  ⟨by decide, C9_commit_skips_tbsc_names _ _ (by decide)⟩
